import Mathlib

/-!
# Verification of the indexed Wordle candidate-narrowing engine

This file gives a shallow embedding in Lean 4 of `wordle.py` (the indexed
engine: filter classes `IncludeCharFilter`, `HasCharInPosFilter`,
`DoesNotHaveCharFilter`, the free functions `information` and
`expected_information`, and the class `Engine` with its methods
`build_word_filtersets`, `build_word_includeset`, `filter_current_guesses`,
`entropy`, `build_includeset_dict`, `narrow_guesses` and `step`), and proves
or refutes the specification's claims about it.

Modelling conventions:
* a Python word (string) is a `List Char`;
* Python `set` becomes `Finset`, Python `dict` keyed by filters becomes a
  function `FilterFn → Finset Word` (the `defaultdict(set)` default is the
  empty set, which the function model returns for any key no word produced);
* Python exceptions become `Except PyError`; real-number arithmetic on
  probabilities is modelled exactly, with `ℚ` for the probabilities
  themselves and `ℝ` (with `Real.logb 2`) for the information values;
* a separate, finer model (`EngineD`) additionally tracks the *key set* of
  the `defaultdict` index, in order to observe the insertion of empty
  entries performed by `__getitem__` on a missing key.
-/

namespace Wordle

/-- A word, modelling a Python string: a list of characters. -/
abbrev Word := List Char

instance {ε α : Type} [DecidableEq ε] [DecidableEq α] : DecidableEq (Except ε α) :=
  fun x y =>
    match x, y with
    | .error a, .error b => decidable_of_iff (a = b) (by simp)
    | .error _, .ok _ => isFalse (fun h => Except.noConfusion h)
    | .ok _, .error _ => isFalse (fun h => Except.noConfusion h)
    | .ok a, .ok b => decidable_of_iff (a = b) (by simp)

/-- The exceptions relevant to this development.  The Python code can raise
`ZeroDivisionError` (dividing by `len(pool)` when the pool is empty),
`IndexError` (`candidate[pos]` out of range) and `AttributeError`
(`HasCharInPosFilter.__eq__` reading `.pos` from a filter without that
field).  `emptyPoolError` and `malformedProbeError` are the error kinds the
specification names; they are included so that the spec's claims about them
can be stated, but no code path produces them. -/
inductive PyError where
  | zeroDivisionError : PyError
  | indexError : PyError
  | attributeError : PyError
  | emptyPoolError : PyError
  | malformedProbeError : PyError
deriving DecidableEq, Repr

/-- The three feedback-predicate classes of `wordle.py` as a tagged variant:
`IncludeCharFilter(char)`, `HasCharInPosFilter(char, pos)`,
`DoesNotHaveCharFilter(char)`. -/
inductive FilterFn where
  | includeCharFilter : Char → FilterFn
  | hasCharInPosFilter : Char → Nat → FilterFn
  | doesNotHaveCharFilter : Char → FilterFn
deriving DecidableEq, Repr

namespace FilterFn

/-- The `char` field, present on all three filter classes. -/
def char : FilterFn → Char
  | includeCharFilter c => c
  | hasCharInPosFilter c _ => c
  | doesNotHaveCharFilter c => c

end FilterFn

/-- The `__call__` method of each filter class, applied to a candidate word.
`IncludeCharFilter`: `self.char in candidate`; `HasCharInPosFilter`:
`candidate[self.pos] == self.char` (raising `IndexError`, modelled as
`none`, when `pos` is out of range); `DoesNotHaveCharFilter`:
`self.char not in candidate`. -/
def callFilter : FilterFn → Word → Option Bool
  | .includeCharFilter c, v => some (decide (c ∈ v))
  | .hasCharInPosFilter c i, v => (v.get? i).map (fun x => decide (x = c))
  | .doesNotHaveCharFilter c, v => some (decide (c ∉ v))

/-- The hand-written `__eq__` methods.  `IncludeCharFilter.__eq__` and
`DoesNotHaveCharFilter.__eq__` compare only `self.char == other.char`
(every filter class has a `char` attribute, so this never raises, whatever
the other filter's class).  `HasCharInPosFilter.__eq__` evaluates
`self.char == __value.char and self.pos == __value.pos`: Python's `and`
short-circuits, so when the chars differ it returns `False` without
reading `__value.pos`; only when the chars are equal does it read
`__value.pos`, which raises `AttributeError` if the other filter is not a
`HasCharInPosFilter`. -/
def pyFilterEq : FilterFn → FilterFn → Except PyError Bool
  | .includeCharFilter c, g => .ok (decide (c = g.char))
  | .doesNotHaveCharFilter c, g => .ok (decide (c = g.char))
  | .hasCharInPosFilter c i, .hasCharInPosFilter c' i' =>
      .ok (decide (c = c') && decide (i = i'))
  | .hasCharInPosFilter c _, g =>
      if c = g.char then .error .attributeError else .ok false

/-- `string.ascii_lowercase`. -/
def asciiLowercase : List Char :=
  ['a', 'b', 'c', 'd', 'e', 'f', 'g', 'h', 'i', 'j', 'k', 'l', 'm',
   'n', 'o', 'p', 'q', 'r', 's', 't', 'u', 'v', 'w', 'x', 'y', 'z']

/-- `Engine.build_word_includeset`: the set of filters a word `v`
satisfies by construction — `HasCharInPosFilter(v[i], i)` for every
position `i`, `IncludeCharFilter(c)` for every (distinct) character of
`v`, and `DoesNotHaveCharFilter(c)` for every ASCII lowercase character
absent from `v`.  The Python function builds a `set`, so the
first-occurrence guard on `IncludeCharFilter` only avoids duplicate
insertions and is absorbed by the `Finset`. -/
def build_word_includeset (v : Word) : Finset FilterFn :=
  (v.enum.map (fun p => FilterFn.hasCharInPosFilter p.2 p.1)).toFinset ∪
  (v.map FilterFn.includeCharFilter).toFinset ∪
  ((asciiLowercase.filter (fun c => decide (c ∉ v))).map
    FilterFn.doesNotHaveCharFilter).toFinset

/-- The option set built by `Engine.build_word_filtersets` for position `i`
holding character `c` of a probe whose first `i` characters are `seen`:
`[DoesNotHaveCharFilter(c), HasCharInPosFilter(c, i)]`, extended with
`IncludeCharFilter(c)` iff `c` was not seen earlier in the probe. -/
def positionOptions (w : Word) (i : Nat) (c : Char) : List FilterFn :=
  [FilterFn.doesNotHaveCharFilter c, FilterFn.hasCharInPosFilter c i] ++
    (if c ∈ w.take i then [] else [FilterFn.includeCharFilter c])

/-- The per-position option lists of `Engine.build_word_filtersets`
(`filters_per_char` in the source). -/
def optionLists (w : Word) : List (List FilterFn) :=
  w.enum.map (fun p => positionOptions w p.1 p.2)

/-- `itertools.product`: the Cartesian product of a list of lists, first
factor varying slowest. -/
def listProduct {α : Type} : List (List α) → List (List α)
  | [] => [[]]
  | l :: ls => l.flatMap (fun x => (listProduct ls).map (fun c => x :: c))

/-- `Engine.build_word_filtersets`: every combination of per-position
filter options for a probe word. -/
def build_word_filtersets (w : Word) : List (List FilterFn) :=
  listProduct (optionLists w)

/-- The `StepResult` dataclass. -/
structure StepResult where
  new_possibilities : Finset Word
  expected_information : ℝ
  actual_information : ℝ

/-- The mutable state of the `Engine` class: the candidate pool
`possible_words`, the index `includeset_dict` (modelled by its lookup
function; the `defaultdict` returns `∅` on a missing key), and the
applied-filters log `current_filters`. -/
structure Engine where
  possible_words : Finset Word
  includeset_dict : FilterFn → Finset Word
  current_filters : List (List FilterFn)

/-- `Engine.build_includeset_dict`: maps each filter to the set of pool
words whose include-set contains it.  A filter produced by no pool word is
sent to `∅`, exactly the `defaultdict(set)` lookup behaviour. -/
def build_includeset_dict (pool : Finset Word) : FilterFn → Finset Word :=
  fun f => pool.filter (fun v => f ∈ build_word_includeset v)

/-- `Engine.__init__` / `Engine.init_guesses` on an initial word list. -/
def Engine.init (words : List Word) : Engine :=
  { possible_words := words.toFinset
    includeset_dict := build_includeset_dict words.toFinset
    current_filters := [] }

/-- The engine invariant maintained by `init_guesses`: the stored index is
the one built from the current pool. -/
def Engine.WF (eng : Engine) : Prop :=
  eng.includeset_dict = build_includeset_dict eng.possible_words

/-- `Engine.filter_current_guesses`: for each filter combination,
intersect the pool with the index entry of every filter in the
combination. -/
def filter_current_guesses (eng : Engine) (filter_sets : List (List FilterFn)) :
    List (Finset Word) :=
  filter_sets.map
    (fun fs => fs.foldl (fun acc f => acc ∩ eng.includeset_dict f) eng.possible_words)

/-- `Engine.narrow_guesses`: the bucket of a single combination,
`filter_current_guesses([filters])[0]`. -/
def narrow_guesses (eng : Engine) (fs : List FilterFn) : Finset Word :=
  (filter_current_guesses eng [fs]).headD ∅

/-- Python division `a / b` of two bucket/pool sizes: raises
`ZeroDivisionError` when `b = 0`, otherwise the exact rational. -/
def divQ (a b : Nat) : Except PyError ℚ :=
  if b = 0 then .error .zeroDivisionError else .ok ((a : ℚ) / (b : ℚ))

/-- Divide each bucket size by the pool size, left to right, stopping at
the first `ZeroDivisionError` (the order in which Python's `sum` consumes
the generator inside `Engine.entropy`). -/
def tryMapDiv (d : Nat) : List (Finset Word) → Except PyError (List ℚ)
  | [] => .ok []
  | s :: rest => (divQ s.card d).bind (fun p => (tryMapDiv d rest).map (fun ps => p :: ps))

/-- The list of bucket probabilities `len(word_set) / len(possible_words)`
computed inside `Engine.entropy`, with Python's division-by-zero
behaviour. -/
def probsResult (eng : Engine) (w : Word) : Except PyError (List ℚ) :=
  tryMapDiv eng.possible_words.card (filter_current_guesses eng (build_word_filtersets w))

/-- The free function `information`: `0` if `p <= 0`, else `-log2(p)`. -/
noncomputable def information (p : ℚ) : ℝ :=
  if p ≤ 0 then 0 else -Real.logb 2 (p : ℝ)

/-- The free function `expected_information`: `p * information(p)`. -/
noncomputable def expected_information (p : ℚ) : ℝ :=
  (p : ℝ) * information p

/-- `Engine.entropy`: the sum of `expected_information` over all bucket
probabilities of the probe's filter combinations. -/
noncomputable def entropyResult (eng : Engine) (w : Word) : Except PyError ℝ :=
  (probsResult eng w).map (fun ps => (ps.map expected_information).sum)

/-- The sum of the bucket probabilities themselves (the quantity the
specification asserts equals 1). -/
def bucket_probability_sum (eng : Engine) (w : Word) : Except PyError ℚ :=
  (probsResult eng w).map List.sum

/-- `Engine.step`: narrow the pool to the observed combination's bucket,
compute `p = |bucket| / |pool|` and `information(p)` and the probe's
entropy against the pre-mutation pool, then re-initialise the engine from
the bucket and append the combination to the log. -/
noncomputable def Engine.step (eng : Engine) (w : Word) (fs : List FilterFn) :
    Except PyError (StepResult × Engine) :=
  let n := narrow_guesses eng fs
  (divQ n.card eng.possible_words.card).bind (fun p =>
    (entropyResult eng w).map (fun e =>
      ({ new_possibilities := n
         expected_information := e
         actual_information := information p },
       { possible_words := n
         includeset_dict := build_includeset_dict n
         current_filters := eng.current_filters ++ [fs] })))

/-!
## Basic characterizations of the index and the buckets
-/

lemma mem_includeset_include {c : Char} {v : Word} :
    FilterFn.includeCharFilter c ∈ build_word_includeset v ↔ c ∈ v := by
  simp [build_word_includeset]

lemma mem_includeset_hasPos {c : Char} {i : Nat} {v : Word} :
    FilterFn.hasCharInPosFilter c i ∈ build_word_includeset v ↔ v[i]? = some c := by
  simp only [build_word_includeset, Finset.mem_union, List.mem_toFinset, List.mem_map,
    List.mem_filter, Prod.exists]
  constructor
  · rintro ((⟨i', c', hmem, heq⟩ | ⟨c', _, heq⟩) | ⟨c', _, heq⟩)
    · obtain ⟨rfl, rfl⟩ : c' = c ∧ i' = i := by
        exact ⟨(FilterFn.hasCharInPosFilter.injEq _ _ _ _).mp heq |>.1,
               (FilterFn.hasCharInPosFilter.injEq _ _ _ _).mp heq |>.2⟩
      exact List.mk_mem_enum_iff_getElem?.mp hmem
    · exact absurd heq (by simp)
    · exact absurd heq (by simp)
  · intro h
    exact Or.inl (Or.inl ⟨i, c, List.mk_mem_enum_iff_getElem?.mpr h, rfl⟩)

lemma mem_includeset_dnh {c : Char} {v : Word} :
    FilterFn.doesNotHaveCharFilter c ∈ build_word_includeset v ↔
      c ∈ asciiLowercase ∧ c ∉ v := by
  simp [build_word_includeset, and_comm]

lemma mem_build_includeset_dict {pool : Finset Word} {f : FilterFn} {v : Word} :
    v ∈ build_includeset_dict pool f ↔ v ∈ pool ∧ f ∈ build_word_includeset v :=
  Finset.mem_filter

lemma mem_foldl_inter {g : FilterFn → Finset Word} {init : Finset Word}
    {fs : List FilterFn} {v : Word} :
    v ∈ fs.foldl (fun acc f => acc ∩ g f) init ↔ v ∈ init ∧ ∀ f ∈ fs, v ∈ g f := by
  induction fs generalizing init with
  | nil => simp
  | cons a l ih =>
    simp only [List.foldl_cons, ih, Finset.mem_inter, List.mem_cons]
    constructor
    · rintro ⟨⟨h1, h2⟩, h3⟩
      exact ⟨h1, fun f hf => hf.elim (fun e => e ▸ h2) (h3 f)⟩
    · rintro ⟨h1, h2⟩
      exact ⟨⟨h1, h2 a (Or.inl rfl)⟩, fun f hf => h2 f (Or.inr hf)⟩

lemma narrow_guesses_eq_foldl (eng : Engine) (fs : List FilterFn) :
    narrow_guesses eng fs =
      fs.foldl (fun acc f => acc ∩ eng.includeset_dict f) eng.possible_words := rfl

lemma narrow_guesses_subset (eng : Engine) (fs : List FilterFn) :
    narrow_guesses eng fs ⊆ eng.possible_words := by
  intro v hv
  rw [narrow_guesses_eq_foldl] at hv
  exact (mem_foldl_inter.mp hv).1

lemma mem_narrow_guesses {eng : Engine} (hwf : eng.WF) {fs : List FilterFn} {v : Word} :
    v ∈ narrow_guesses eng fs ↔
      v ∈ eng.possible_words ∧ ∀ f ∈ fs, f ∈ build_word_includeset v := by
  rw [narrow_guesses_eq_foldl, mem_foldl_inter, hwf]
  constructor
  · rintro ⟨h1, h2⟩
    exact ⟨h1, fun f hf => (mem_build_includeset_dict.mp (h2 f hf)).2⟩
  · rintro ⟨h1, h2⟩
    exact ⟨h1, fun f hf => mem_build_includeset_dict.mpr ⟨h1, h2 f hf⟩⟩

lemma narrow_guesses_eq_filter {eng : Engine} (hwf : eng.WF) (fs : List FilterFn) :
    narrow_guesses eng fs =
      eng.possible_words.filter (fun v => ∀ f ∈ fs, f ∈ build_word_includeset v) := by
  ext v
  rw [mem_narrow_guesses hwf, Finset.mem_filter]

lemma filter_current_guesses_eq_map (eng : Engine) (filter_sets : List (List FilterFn)) :
    filter_current_guesses eng filter_sets =
      filter_sets.map (narrow_guesses eng) := by
  simp [filter_current_guesses, narrow_guesses]

/-!
## Success and failure of the probability computations
-/

lemma divQ_of_ne_zero {b : Nat} (h : b ≠ 0) (a : Nat) :
    divQ a b = .ok ((a : ℚ) / (b : ℚ)) := by
  simp [divQ, h]

lemma probsResult_of_card_ne_zero {eng : Engine} (h : eng.possible_words.card ≠ 0)
    (w : Word) :
    probsResult eng w =
      .ok ((filter_current_guesses eng (build_word_filtersets w)).map
        (fun s => (s.card : ℚ) / (eng.possible_words.card : ℚ))) := by
  unfold probsResult
  generalize filter_current_guesses eng (build_word_filtersets w) = l
  induction l with
  | nil => rfl
  | cons a l ih => simp [tryMapDiv, divQ_of_ne_zero h, ih, Except.bind, Except.map]

lemma entropyResult_of_card_ne_zero {eng : Engine} (h : eng.possible_words.card ≠ 0)
    (w : Word) :
    entropyResult eng w =
      .ok (((filter_current_guesses eng (build_word_filtersets w)).map
        (fun s => expected_information ((s.card : ℚ) / (eng.possible_words.card : ℚ)))).sum) := by
  rw [entropyResult, probsResult_of_card_ne_zero h, Except.map, List.map_map]
  rfl

lemma listProduct_ne_nil {α : Type} {ls : List (List α)} (h : ∀ l ∈ ls, l ≠ []) :
    listProduct ls ≠ [] := by
  induction ls with
  | nil => simp [listProduct]
  | cons a ls ih =>
    have ha : a ≠ [] := h a (List.mem_cons_self a ls)
    have hls : listProduct ls ≠ [] := ih (fun l hl => h l (List.mem_cons_of_mem a hl))
    obtain ⟨x, xs, rfl⟩ := List.exists_cons_of_ne_nil ha
    obtain ⟨c, cs, hc⟩ := List.exists_cons_of_ne_nil hls
    simp [listProduct, hc]

lemma build_word_filtersets_ne_nil (w : Word) : build_word_filtersets w ≠ [] := by
  apply listProduct_ne_nil
  intro l hl
  simp only [optionLists, List.mem_map, Prod.exists] at hl
  obtain ⟨i, c, _, rfl⟩ := hl
  simp [positionOptions]

lemma probsResult_of_card_eq_zero {eng : Engine} (h : eng.possible_words.card = 0)
    (w : Word) : probsResult eng w = .error .zeroDivisionError := by
  unfold probsResult
  rw [filter_current_guesses_eq_map]
  obtain ⟨fs, rest, hc⟩ := List.exists_cons_of_ne_nil (build_word_filtersets_ne_nil w)
  rw [hc]
  simp [tryMapDiv, divQ, h, Except.bind]

lemma entropyResult_of_card_eq_zero {eng : Engine} (h : eng.possible_words.card = 0)
    (w : Word) : entropyResult eng w = .error .zeroDivisionError := by
  rw [entropyResult, probsResult_of_card_eq_zero h]
  rfl

/-!
## Counting combinations: how many buckets contain a given word
-/

/-- The number of filter combinations generated for probe `w` whose bucket
contains the pool word `v`. -/
def combinations_containing (eng : Engine) (w v : Word) : Nat :=
  (build_word_filtersets w).countP (fun fs => decide (v ∈ narrow_guesses eng fs))

lemma countP_listProduct {α : Type} (p : α → Bool) :
    ∀ ls : List (List α),
      (listProduct ls).countP (fun cs => cs.all p) = (ls.map (fun l => l.countP p)).prod := by
  intro ls
  induction ls with
  | nil => simp [listProduct]
  | cons l ls ih =>
    have inner : ∀ l' : List α,
        (l'.flatMap (fun x => (listProduct ls).map (fun c => x :: c))).countP
            (fun cs => cs.all p) =
          l'.countP p * (listProduct ls).countP (fun cs => cs.all p) := by
      intro l'
      induction l' with
      | nil => simp
      | cons x xs ihx =>
        rw [List.flatMap_cons, List.countP_append, ihx, List.countP_cons]
        have hmap : ((listProduct ls).map (fun c => x :: c)).countP (fun cs => cs.all p) =
            if p x then (listProduct ls).countP (fun cs => cs.all p) else 0 := by
          rw [List.countP_map]
          by_cases hx : p x
          · simp [Function.comp_def, hx]
          · simp only [Function.comp_def, List.all_cons]
            rw [if_neg hx]
            apply List.countP_eq_zero.mpr
            intro cs _
            simp [Bool.eq_false_iff.mpr hx]
        rw [hmap]
        by_cases hx : p x <;> simp [hx, Nat.add_mul, Nat.add_comm]
    rw [listProduct, inner, ih, List.map_cons, List.prod_cons]

lemma sum_card_filter_list {β : Type} (l : List β) (pool : Finset Word)
    (P : β → Word → Prop) [inst : ∀ c v, Decidable (P c v)] :
    (l.map (fun c => (pool.filter (P c)).card)).sum =
      ∑ v ∈ pool, l.countP (fun c => decide (P c v)) := by
  induction l with
  | nil => simp
  | cons a l ih =>
    simp only [List.map_cons, List.sum_cons, ih, List.countP_cons]
    rw [Finset.sum_add_distrib, Finset.card_filter]
    simp only [decide_eq_true_eq]
    rw [Nat.add_comm]

lemma sum_bucket_cards {eng : Engine} (hwf : eng.WF) (w : Word) :
    ((filter_current_guesses eng (build_word_filtersets w)).map Finset.card).sum =
      ∑ v ∈ eng.possible_words, combinations_containing eng w v := by
  rw [filter_current_guesses_eq_map, List.map_map]
  have hfilter : (Finset.card ∘ narrow_guesses eng) = fun fs =>
      (eng.possible_words.filter (fun v => ∀ f ∈ fs, f ∈ build_word_includeset v)).card := by
    funext fs
    simp [Function.comp_def, narrow_guesses_eq_filter hwf]
  rw [hfilter, sum_card_filter_list]
  apply Finset.sum_congr rfl
  intro v hv
  apply List.countP_congr
  intro fs _
  simp only [decide_eq_true_eq]
  rw [mem_narrow_guesses hwf]
  exact ⟨fun h => ⟨hv, h⟩, fun h => h.2⟩

lemma combinations_containing_eq_prod {eng : Engine} (hwf : eng.WF) {w v : Word}
    (hv : v ∈ eng.possible_words) :
    combinations_containing eng w v =
      ((optionLists w).map
        (fun l => l.countP (fun f => decide (f ∈ build_word_includeset v)))).prod := by
  rw [combinations_containing, ← countP_listProduct, ← build_word_filtersets]
  apply List.countP_congr
  intro fs _
  simp only [decide_eq_true_eq, List.all_eq_true]
  rw [mem_narrow_guesses hwf]
  simp [hv]

lemma list_sum_div {l : List ℚ} {d : ℚ} : (l.map (fun x => x / d)).sum = l.sum / d := by
  induction l with
  | nil => simp
  | cons a l ih => simp [ih, add_div]

/-!
## Analytic facts about `information` and `expected_information`
-/

lemma information_of_nonpos {p : ℚ} (h : p ≤ 0) : information p = 0 := by
  simp [information, h]

lemma information_of_pos {p : ℚ} (h : 0 < p) :
    information p = -Real.logb 2 (p : ℝ) := by
  simp [information, not_le.mpr h]

lemma expected_information_zero : expected_information 0 = 0 := by
  simp [expected_information]

lemma expected_information_one : expected_information 1 = 0 := by
  simp [expected_information, information, Real.logb_one]

lemma expected_information_nonneg {p : ℚ} (h1 : p ≤ 1) :
    0 ≤ expected_information p := by
  rcases le_or_lt p 0 with h0 | h0
  · simp [expected_information, information_of_nonpos h0]
  · rw [expected_information, information_of_pos h0]
    apply mul_nonneg (by exact_mod_cast h0.le)
    rw [neg_nonneg]
    apply Real.logb_nonpos one_lt_two (by exact_mod_cast h0.le) (by exact_mod_cast h1)

lemma expected_information_pos {p : ℚ} (h0 : 0 < p) (h1 : p < 1) :
    0 < expected_information p := by
  rw [expected_information, information_of_pos h0]
  apply mul_pos (by exact_mod_cast h0)
  rw [neg_pos]
  exact Real.logb_neg one_lt_two (by exact_mod_cast h0) (by exact_mod_cast h1)

lemma expected_information_eq_zero_iff {p : ℚ} (h0 : 0 ≤ p) (h1 : p ≤ 1) :
    expected_information p = 0 ↔ p = 0 ∨ p = 1 := by
  constructor
  · intro h
    rcases h0.eq_or_lt with rfl | hpos
    · exact Or.inl rfl
    rcases h1.eq_or_lt with rfl | hlt
    · exact Or.inr rfl
    exact absurd h (ne_of_gt (expected_information_pos hpos hlt))
  · rintro (rfl | rfl)
    · exact expected_information_zero
    · exact expected_information_one

lemma list_sum_real_nonneg {l : List ℝ} (h : ∀ x ∈ l, 0 ≤ x) : 0 ≤ l.sum := by
  induction l with
  | nil => simp
  | cons a l ih =>
    rw [List.sum_cons]
    exact add_nonneg (h a (List.mem_cons_self a l)) (ih (fun x hx => h x (List.mem_cons_of_mem a hx)))

lemma list_sum_real_eq_zero_iff {l : List ℝ} (h : ∀ x ∈ l, 0 ≤ x) :
    l.sum = 0 ↔ ∀ x ∈ l, x = 0 := by
  induction l with
  | nil => simp
  | cons a l ih =>
    have ha := h a (List.mem_cons_self a l)
    have hl : ∀ x ∈ l, 0 ≤ x := fun x hx => h x (List.mem_cons_of_mem a hx)
    rw [List.sum_cons, add_eq_zero_iff_of_nonneg ha (list_sum_real_nonneg hl), ih hl]
    constructor
    · rintro ⟨h1, h2⟩ x hx
      rcases List.mem_cons.mp hx with rfl | hx'
      · exact h1
      · exact h2 x hx'
    · intro hx
      exact ⟨hx a (List.mem_cons_self a l), fun x h' => hx x (List.mem_cons_of_mem a h')⟩

/-- Every bucket produced for a probe is a subset of the pool; hence its
probability lies in `[0, 1]`. -/
lemma bucket_subset_of_mem {eng : Engine} {w : Word} {s : Finset Word}
    (hs : s ∈ filter_current_guesses eng (build_word_filtersets w)) :
    s ⊆ eng.possible_words := by
  rw [filter_current_guesses_eq_map] at hs
  obtain ⟨fs, _, rfl⟩ := List.mem_map.mp hs
  exact narrow_guesses_subset eng fs

lemma bucket_prob_nonneg {s : Finset Word} {n : Nat} :
    (0 : ℚ) ≤ (s.card : ℚ) / (n : ℚ) := by
  apply div_nonneg <;> exact_mod_cast Nat.zero_le _

lemma bucket_prob_le_one {s pool : Finset Word} (hsub : s ⊆ pool)
    (h : pool.card ≠ 0) : (s.card : ℚ) / (pool.card : ℚ) ≤ 1 := by
  rw [div_le_one (by exact_mod_cast Nat.pos_of_ne_zero h)]
  exact_mod_cast Finset.card_le_card hsub

/-!
## Direct predicate evaluation versus the index
-/

/-- Modelled from the spec's description of `bucket(combination)` as "the
set of words satisfying every predicate in the combination", with each
predicate evaluated directly on the word through its `__call__` method.
This is the specification-side definition that claim C3 compares with the
index-intersection computation `narrow_guesses`. -/
def bucketSpec (pool : Finset Word) (fs : List FilterFn) : Finset Word :=
  pool.filter (fun v => ∀ f ∈ fs, callFilter f v = some true)

lemma callFilter_include_eq_some_true {c : Char} {v : Word} :
    callFilter (.includeCharFilter c) v = some true ↔ c ∈ v := by
  simp [callFilter]

lemma callFilter_dnh_eq_some_true {c : Char} {v : Word} :
    callFilter (.doesNotHaveCharFilter c) v = some true ↔ c ∉ v := by
  simp [callFilter]

lemma callFilter_hasPos_eq_some_true {c : Char} {i : Nat} {v : Word} :
    callFilter (.hasCharInPosFilter c i) v = some true ↔ v[i]? = some c := by
  simp only [callFilter, Option.map_eq_some', List.get?_eq_getElem?]
  constructor
  · rintro ⟨x, hx, hdec⟩
    rw [hx]
    congr
    exact of_decide_eq_true hdec
  · intro h
    exact ⟨c, h, by simp⟩

/-- A filter appearing in the option list for position `i`, character `c`
of a probe is one of the three filters built from `(c, i)`. -/
lemma mem_positionOptions {w : Word} {i : Nat} {c : Char} {f : FilterFn}
    (hf : f ∈ positionOptions w i c) :
    f = .doesNotHaveCharFilter c ∨ f = .hasCharInPosFilter c i ∨
      f = .includeCharFilter c := by
  simp only [positionOptions, List.mem_append, List.mem_cons, List.not_mem_nil] at hf
  rcases hf with (h | h | h) | h
  · exact Or.inl h
  · exact Or.inr (Or.inl h)
  · exact absurd h (by simp)
  · by_cases hseen : c ∈ w.take i <;> simp [hseen] at h
    exact Or.inr (Or.inr h)

lemma mem_of_mem_listProduct {α : Type} {ls : List (List α)} :
    ∀ {cs : List α}, cs ∈ listProduct ls → ∀ f ∈ cs, ∃ l ∈ ls, f ∈ l := by
  induction ls with
  | nil =>
    intro cs hcs f hf
    simp only [listProduct, List.mem_singleton] at hcs
    subst hcs
    exact absurd hf (List.not_mem_nil f)
  | cons l ls ih =>
    intro cs hcs f hf
    simp only [listProduct, List.mem_flatMap, List.mem_map] at hcs
    obtain ⟨x, hx, cs', hcs', rfl⟩ := hcs
    rcases List.mem_cons.mp hf with rfl | hf'
    · exact ⟨l, List.mem_cons_self l ls, hx⟩
    · obtain ⟨l', hl', hfl'⟩ := ih hcs' f hf'
      exact ⟨l', List.mem_cons_of_mem l hl', hfl'⟩

/-- Every filter of a combination generated for probe `w` is built from a
character of `w` and (for position filters) a position below `w.length`. -/
lemma mem_combination_cases {w : Word} {fs : List FilterFn}
    (hfs : fs ∈ build_word_filtersets w) {f : FilterFn} (hf : f ∈ fs) :
    (∃ c ∈ w, f = .doesNotHaveCharFilter c) ∨
    (∃ c, ∃ i < w.length, w[i]? = some c ∧ f = .hasCharInPosFilter c i) ∨
    (∃ c ∈ w, f = .includeCharFilter c) := by
  obtain ⟨l, hl, hfl⟩ := mem_of_mem_listProduct hfs f hf
  simp only [optionLists, List.mem_map, Prod.exists] at hl
  obtain ⟨i, c, hmem, rfl⟩ := hl
  have hget : w[i]? = some c := List.mk_mem_enum_iff_getElem?.mp hmem
  have hlen : i < w.length := (List.getElem?_eq_some_iff.mp hget).1
  have hcw : c ∈ w := by
    obtain ⟨h', he⟩ := List.getElem?_eq_some_iff.mp hget
    exact he ▸ List.getElem_mem h'
  rcases mem_positionOptions hfl with rfl | rfl | rfl
  · exact Or.inl ⟨c, hcw, rfl⟩
  · exact Or.inr (Or.inl ⟨c, i, hlen, hget, rfl⟩)
  · exact Or.inr (Or.inr ⟨c, hcw, rfl⟩)

/-- A word over the configured alphabet (all characters ASCII lowercase). -/
def WordLowercase (w : Word) : Prop := ∀ c ∈ w, c ∈ asciiLowercase

/-- Index membership implies direct satisfaction, for any filter. -/
lemma call_true_of_mem_includeset {f : FilterFn} {v : Word}
    (h : f ∈ build_word_includeset v) : callFilter f v = some true := by
  cases f with
  | includeCharFilter c =>
    exact callFilter_include_eq_some_true.mpr (mem_includeset_include.mp h)
  | hasCharInPosFilter c i =>
    exact callFilter_hasPos_eq_some_true.mpr (mem_includeset_hasPos.mp h)
  | doesNotHaveCharFilter c =>
    exact callFilter_dnh_eq_some_true.mpr (mem_includeset_dnh.mp h).2

/-- For a filter over the lowercase alphabet whose position (if any) is in
range, absence from a word's include-set means the word directly fails the
filter. -/
lemma call_false_of_not_mem_includeset {f : FilterFn} {v : Word}
    (hl : f.char ∈ asciiLowercase)
    (hpos : ∀ c i, f = .hasCharInPosFilter c i → i < v.length)
    (h : f ∉ build_word_includeset v) : callFilter f v = some false := by
  cases f with
  | includeCharFilter c =>
    rw [mem_includeset_include] at h
    simp [callFilter, h]
  | hasCharInPosFilter c i =>
    have hi : i < v.length := hpos c i rfl
    rw [mem_includeset_hasPos] at h
    obtain ⟨x, hx⟩ : ∃ x, v[i]? = some x := ⟨v[i], List.getElem?_eq_some_iff.mpr ⟨hi, rfl⟩⟩
    have hxc : x ≠ c := by
      intro rfl'
      exact h (rfl' ▸ hx)
    simp [callFilter, hx, hxc]
  | doesNotHaveCharFilter c =>
    rw [mem_includeset_dnh] at h
    have hcv : c ∈ v := by
      by_contra hcv
      exact h ⟨hl, hcv⟩
    simp [callFilter, hcv]

/-- For a filter over the lowercase alphabet whose position (if any) is in
range, index membership coincides exactly with direct satisfaction. -/
lemma mem_includeset_iff_call {f : FilterFn} {v : Word}
    (hl : f.char ∈ asciiLowercase)
    (hpos : ∀ c i, f = .hasCharInPosFilter c i → i < v.length) :
    f ∈ build_word_includeset v ↔ callFilter f v = some true := by
  constructor
  · exact call_true_of_mem_includeset
  · intro hc
    by_contra hmem
    rw [call_false_of_not_mem_includeset hl hpos hmem] at hc
    exact Bool.false_ne_true (Option.some_injective _ hc)

/-!
## Unfolding `Engine.step`
-/

/-- The pure value of `Engine.entropy` on a non-empty pool. -/
noncomputable def entropyVal (eng : Engine) (w : Word) : ℝ :=
  ((filter_current_guesses eng (build_word_filtersets w)).map
    (fun s => expected_information ((s.card : ℚ) / (eng.possible_words.card : ℚ)))).sum

lemma entropyResult_eq_ok {eng : Engine} (h : eng.possible_words.card ≠ 0) (w : Word) :
    entropyResult eng w = .ok (entropyVal eng w) :=
  entropyResult_of_card_ne_zero h w

lemma step_eq_ok {eng : Engine} (h : eng.possible_words.card ≠ 0) (w : Word)
    (fs : List FilterFn) :
    eng.step w fs = .ok
      ({ new_possibilities := narrow_guesses eng fs
         expected_information := entropyVal eng w
         actual_information :=
           information (((narrow_guesses eng fs).card : ℚ) / (eng.possible_words.card : ℚ)) },
       { possible_words := narrow_guesses eng fs
         includeset_dict := build_includeset_dict (narrow_guesses eng fs)
         current_filters := eng.current_filters ++ [fs] }) := by
  unfold Engine.step
  dsimp only
  rw [divQ_of_ne_zero h, entropyResult_eq_ok h]
  rfl

lemma step_eq_error {eng : Engine} (h : eng.possible_words.card = 0) (w : Word)
    (fs : List FilterFn) : eng.step w fs = .error .zeroDivisionError := by
  unfold Engine.step
  simp [divQ, h, Except.bind]

/-!
## The dict-explicit model of the engine

The function model `Engine` identifies the index with its lookup function
and cannot see one effect of the source: `filter_current_guesses` reads
`self.includeset_dict[filter]` on a `defaultdict(set)`, and a lookup of a
*missing* key inserts that key with an empty set.  `EngineD` additionally
tracks the dictionary's key set, so this insertion is observable.
-/

/-- The engine state with the index dictionary modelled as a key set plus
a value function (missing keys are exactly those outside `dictKeys`). -/
structure EngineD where
  possible_words : Finset Word
  dictKeys : Finset FilterFn
  dictVals : FilterFn → Finset Word
  current_filters : List (List FilterFn)

/-- `defaultdict.__getitem__`: a present key returns its value and leaves
the dictionary alone; a missing key inserts an empty-set entry for it and
returns that empty set. -/
def getItem (e : EngineD) (f : FilterFn) : Finset Word × EngineD :=
  if f ∈ e.dictKeys then (e.dictVals f, e)
  else (∅, { e with dictKeys := insert f e.dictKeys
                    dictVals := fun g => if g = f then ∅ else e.dictVals g })

/-- The left-to-right index lookups of one combination
(`[self.includeset_dict[filter] for filter in filter_set]`). -/
def getItems : EngineD → List FilterFn → List (Finset Word) × EngineD
  | e, [] => ([], e)
  | e, f :: fs =>
      let p := getItem e f
      let q := getItems p.2 fs
      (p.1 :: q.1, q.2)

/-- `Engine.filter_current_guesses` with the dictionary effects tracked:
for each combination, look up all its filters, then intersect the pool
with the looked-up sets. -/
def filter_current_guessesD : EngineD → List (List FilterFn) → List (Finset Word) × EngineD
  | _e, [] => ([], _e)
  | e, fs :: rest =>
      let p := getItems e fs
      let ws := p.1.foldl (fun acc s => acc ∩ s) e.possible_words
      let q := filter_current_guessesD p.2 rest
      (ws :: q.1, q.2)

/-- `Engine.entropy` in the dict-explicit model: the returned value plus
the engine state after the call. -/
noncomputable def entropyD (e : EngineD) (w : Word) : Except PyError ℝ × EngineD :=
  let p := filter_current_guessesD e (build_word_filtersets w)
  ((tryMapDiv e.possible_words.card p.1).map
     (fun ps => (ps.map expected_information).sum), p.2)

/-- `Engine.__init__` in the dict-explicit model: the key set is every
filter emitted by some pool word's include-set. -/
def EngineD.init (words : List Word) : EngineD :=
  { possible_words := words.toFinset
    dictKeys := words.toFinset.biUnion build_word_includeset
    dictVals := build_includeset_dict words.toFinset
    current_filters := [] }

/-- The invariant relating keys and values: a missing key's value is the
empty set (so that `defaultdict` stub insertions do not change the value
function). -/
def DictInv (e : EngineD) : Prop := ∀ f, f ∉ e.dictKeys → e.dictVals f = ∅

lemma DictInv_init (words : List Word) : DictInv (EngineD.init words) := by
  intro f hf
  simp only [EngineD.init, Finset.mem_biUnion, not_exists] at hf
  apply Finset.filter_eq_empty_iff.mpr
  intro v hv
  exact fun hmem => hf v ⟨hv, hmem⟩

lemma getItem_fst {e : EngineD} (hinv : DictInv e) (f : FilterFn) :
    (getItem e f).1 = e.dictVals f := by
  unfold getItem
  by_cases hf : f ∈ e.dictKeys
  · simp [hf]
  · simp [hf, (hinv f hf).symm]

lemma getItem_snd_vals {e : EngineD} (hinv : DictInv e) (f : FilterFn) :
    (getItem e f).2.dictVals = e.dictVals := by
  unfold getItem
  by_cases hf : f ∈ e.dictKeys
  · simp [hf]
  · simp only [hf, if_neg, if_false]
    funext g
    by_cases hg : g = f
    · subst hg
      exact (if_pos rfl).trans (hinv g hf).symm
    · exact if_neg hg

lemma getItem_snd_pool (e : EngineD) (f : FilterFn) :
    (getItem e f).2.possible_words = e.possible_words := by
  unfold getItem
  by_cases hf : f ∈ e.dictKeys <;> simp [hf]

lemma getItem_snd_filters (e : EngineD) (f : FilterFn) :
    (getItem e f).2.current_filters = e.current_filters := by
  unfold getItem
  by_cases hf : f ∈ e.dictKeys <;> simp [hf]

lemma getItem_snd_keys (e : EngineD) (f : FilterFn) :
    (getItem e f).2.dictKeys = insert f e.dictKeys := by
  unfold getItem
  by_cases hf : f ∈ e.dictKeys <;> simp [hf, Finset.insert_eq_self.mpr]

lemma DictInv_getItem {e : EngineD} (hinv : DictInv e) (f : FilterFn) :
    DictInv (getItem e f).2 := by
  intro g hg
  rw [getItem_snd_keys] at hg
  rw [getItem_snd_vals hinv]
  exact hinv g (fun hmem => hg (Finset.mem_insert_of_mem hmem))

lemma getItem_of_mem {e : EngineD} {f : FilterFn} (hf : f ∈ e.dictKeys) :
    getItem e f = (e.dictVals f, e) := by
  simp [getItem, hf]

lemma getItems_spec {e : EngineD} (hinv : DictInv e) (fs : List FilterFn) :
    (getItems e fs).1 = fs.map e.dictVals ∧
    (getItems e fs).2.dictVals = e.dictVals ∧
    (getItems e fs).2.possible_words = e.possible_words ∧
    (getItems e fs).2.current_filters = e.current_filters ∧
    (getItems e fs).2.dictKeys = e.dictKeys ∪ fs.toFinset ∧
    DictInv (getItems e fs).2 := by
  induction fs generalizing e with
  | nil => simpa [getItems] using hinv
  | cons f fs ih =>
    obtain ⟨h1, h2, h3, h4, h5, h6⟩ := ih (DictInv_getItem hinv f)
    refine ⟨?_, ?_, ?_, ?_, ?_, ?_⟩
    · simp only [getItems, h1, getItem_fst hinv, getItem_snd_vals hinv, List.map_cons]
    · simp only [getItems, h2, getItem_snd_vals hinv]
    · simp only [getItems, h3, getItem_snd_pool]
    · simp only [getItems, h4, getItem_snd_filters]
    · simp only [getItems, h5, getItem_snd_keys, List.toFinset_cons]
      rw [Finset.insert_union, Finset.union_insert]
    · exact h6

lemma getItems_of_subset {e : EngineD} {fs : List FilterFn}
    (hsub : ∀ f ∈ fs, f ∈ e.dictKeys) :
    getItems e fs = (fs.map e.dictVals, e) := by
  induction fs with
  | nil => rfl
  | cons f fs ih =>
    have hf : f ∈ e.dictKeys := hsub f (List.mem_cons_self f fs)
    simp only [getItems, getItem_of_mem hf]
    rw [ih (fun g hg => hsub g (List.mem_cons_of_mem f hg))]
    simp

/-- All filters occurring in a list of combinations. -/
def allFilters (combos : List (List FilterFn)) : Finset FilterFn :=
  combos.foldr (fun fs acc => fs.toFinset ∪ acc) ∅

lemma filter_current_guessesD_spec {e : EngineD} (hinv : DictInv e)
    (combos : List (List FilterFn)) :
    (filter_current_guessesD e combos).1 =
      combos.map (fun fs => (fs.map e.dictVals).foldl (fun acc s => acc ∩ s)
        e.possible_words) ∧
    (filter_current_guessesD e combos).2.dictVals = e.dictVals ∧
    (filter_current_guessesD e combos).2.possible_words = e.possible_words ∧
    (filter_current_guessesD e combos).2.current_filters = e.current_filters ∧
    (filter_current_guessesD e combos).2.dictKeys = e.dictKeys ∪ allFilters combos ∧
    DictInv (filter_current_guessesD e combos).2 := by
  induction combos generalizing e with
  | nil => simpa [filter_current_guessesD, allFilters] using hinv
  | cons fs rest ih =>
    obtain ⟨g1, g2, g3, g4, g5, g6⟩ := getItems_spec hinv fs
    obtain ⟨h1, h2, h3, h4, h5, h6⟩ := ih g6
    refine ⟨?_, ?_, ?_, ?_, ?_, ?_⟩
    · simp only [filter_current_guessesD, h1, g1, g2, g3, List.map_cons]
    · simp only [filter_current_guessesD, h2, g2]
    · simp only [filter_current_guessesD, h3, g3]
    · simp only [filter_current_guessesD, h4, g4]
    · simp only [filter_current_guessesD, h5, g5, allFilters, List.foldr_cons]
      rw [Finset.union_assoc]
    · exact h6

lemma filter_current_guessesD_of_subset {e : EngineD} {combos : List (List FilterFn)}
    (hsub : ∀ fs ∈ combos, ∀ f ∈ fs, f ∈ e.dictKeys) :
    filter_current_guessesD e combos =
      (combos.map (fun fs => (fs.map e.dictVals).foldl (fun acc s => acc ∩ s)
        e.possible_words), e) := by
  induction combos with
  | nil => rfl
  | cons fs rest ih =>
    have h1 := getItems_of_subset (hsub fs (List.mem_cons_self fs rest))
    simp only [filter_current_guessesD, h1]
    rw [ih (fun gs hgs g hg => hsub gs (List.mem_cons_of_mem fs hgs) g hg)]
    simp

lemma mem_allFilters {combos : List (List FilterFn)} {fs : List FilterFn}
    {f : FilterFn} (hfs : fs ∈ combos) (hf : f ∈ fs) : f ∈ allFilters combos := by
  induction combos with
  | nil => exact absurd hfs (List.not_mem_nil fs)
  | cons gs rest ih =>
    simp only [allFilters, List.foldr_cons, Finset.mem_union]
    rcases List.mem_cons.mp hfs with rfl | h'
    · exact Or.inl (List.mem_toFinset.mpr hf)
    · exact Or.inr (ih h')

/-!
## Claim theorems
-/

/-- Claim C5, counterexample: on an empty pool, `entropy` and `step` do not
raise the spec's `EmptyPoolError`; they raise Python's `ZeroDivisionError`
from the division `len(word_set) / len(self.possible_words)`. -/
theorem claim5_counterexample :
    entropyResult (Engine.init []) ['a'] = .error .zeroDivisionError ∧
    (Engine.init []).step ['a'] [] = .error .zeroDivisionError ∧
    PyError.zeroDivisionError ≠ PyError.emptyPoolError := by
  exact ⟨entropyResult_of_card_eq_zero (by rfl) ['a'], step_eq_error (by rfl) ['a'] [],
    by decide⟩

/-- Claim C5 as amended: invoking `entropy` or `step` on an engine whose
pool is empty raises `ZeroDivisionError` (there is no `EmptyPoolError` in
the code; the division by zero itself is the surfaced error). -/
theorem claim5_amended {eng : Engine} (h : eng.possible_words = ∅)
    (w : Word) (fs : List FilterFn) :
    entropyResult eng w = .error .zeroDivisionError ∧
    eng.step w fs = .error .zeroDivisionError := by
  have hc : eng.possible_words.card = 0 := by rw [h]; rfl
  exact ⟨entropyResult_of_card_eq_zero hc w, step_eq_error hc w fs⟩

/-- Witness for the amended C5 at a concrete empty engine. -/
theorem claim5_witness :
    (Engine.init []).possible_words = ∅ ∧
    (entropyResult (Engine.init []) ['b'] = .error .zeroDivisionError ∧
     (Engine.init []).step ['b'] [] = .error .zeroDivisionError) :=
  ⟨rfl, claim5_amended rfl ['b'] []⟩

/-- Claim C6, counterexample: a probe containing the out-of-alphabet
character `'A'` does not raise `MalformedProbeError`; `entropy` silently
returns `0` (all its index lookups miss, so every bucket is empty). -/
theorem claim6_counterexample :
    'A' ∉ asciiLowercase ∧
    entropyResult (Engine.init [['b']]) ['A'] = .ok 0 := by
  refine ⟨by decide, ?_⟩
  rw [entropyResult_eq_ok (by decide)]
  have hb : filter_current_guesses (Engine.init [['b']]) (build_word_filtersets ['A']) =
      [∅, ∅, ∅] := by decide
  simp [entropyVal, hb, expected_information_zero]

/-- Claim C6 as amended: no probe validation exists; for any probe
whatsoever (wrong length or out-of-alphabet characters included), `entropy`
and `step` on a non-empty pool return successfully rather than raising. -/
theorem claim6_amended {eng : Engine} (h : eng.possible_words.card ≠ 0)
    (w : Word) (fs : List FilterFn) :
    (∃ x, entropyResult eng w = .ok x) ∧ (∃ r, eng.step w fs = .ok r) :=
  ⟨⟨_, entropyResult_eq_ok h w⟩, ⟨_, step_eq_ok h w fs⟩⟩

/-- Witness for the amended C6 at a malformed probe (wrong length and
out-of-alphabet) on a concrete engine. -/
theorem claim6_witness :
    (Engine.init [['b']]).possible_words.card ≠ 0 ∧
    ((∃ x, entropyResult (Engine.init [['b']]) ['A', 'A'] = .ok x) ∧
     (∃ r, (Engine.init [['b']]).step ['A', 'A'] [] = .ok r)) :=
  ⟨by decide, claim6_amended (by decide) ['A', 'A'] []⟩

/-- Claim C7, counterexample: the hand-written `__eq__` does not check the
predicate's kind, so `IncludeCharFilter('a') == DoesNotHaveCharFilter('a')`
evaluates to `True` although the two predicates are of different kinds. -/
theorem claim7_counterexample :
    pyFilterEq (.includeCharFilter 'a') (.doesNotHaveCharFilter 'a') = .ok true ∧
    FilterFn.includeCharFilter 'a' ≠ FilterFn.doesNotHaveCharFilter 'a' :=
  ⟨rfl, by decide⟩

/-- Claim C7 as amended: two predicates of the same kind compare equal iff
they have the same fields; but `__eq__` is not tag-checked across kinds —
a char-only predicate (Include or Exclude) compares equal to any predicate
carrying the same char, and comparing a PositionMatch against a char-only
predicate short-circuits to `False` when the chars differ and raises
`AttributeError` (no `.pos` attribute) when the chars are equal. -/
theorem claim7_amended (c c' : Char) (i i' : Nat) :
    pyFilterEq (.includeCharFilter c) (.includeCharFilter c') = .ok (decide (c = c')) ∧
    pyFilterEq (.doesNotHaveCharFilter c) (.doesNotHaveCharFilter c') = .ok (decide (c = c')) ∧
    pyFilterEq (.hasCharInPosFilter c i) (.hasCharInPosFilter c' i') =
      .ok (decide (c = c') && decide (i = i')) ∧
    pyFilterEq (.includeCharFilter c) (.doesNotHaveCharFilter c') = .ok (decide (c = c')) ∧
    pyFilterEq (.includeCharFilter c) (.hasCharInPosFilter c' i') = .ok (decide (c = c')) ∧
    pyFilterEq (.doesNotHaveCharFilter c) (.includeCharFilter c') = .ok (decide (c = c')) ∧
    pyFilterEq (.doesNotHaveCharFilter c) (.hasCharInPosFilter c' i') = .ok (decide (c = c')) ∧
    pyFilterEq (.hasCharInPosFilter c i) (.includeCharFilter c') =
      (if c = c' then .error .attributeError else .ok false) ∧
    pyFilterEq (.hasCharInPosFilter c i) (.doesNotHaveCharFilter c') =
      (if c = c' then .error .attributeError else .ok false) :=
  ⟨rfl, rfl, rfl, rfl, rfl, rfl, rfl, rfl, rfl⟩

/-- Claim C10 (from the code): when the observed combination's bucket is
empty, `step` neither raises nor returns an infinite value — `information`
maps `p ≤ 0` to `0`, so the realized information is `0`, and the pool is
replaced by the empty set. -/
theorem claim10_empty_bucket {eng : Engine} (h : eng.possible_words ≠ ∅)
    {fs : List FilterFn} (hempty : narrow_guesses eng fs = ∅) (w : Word) :
    ∃ res eng', eng.step w fs = .ok (res, eng') ∧
      res.actual_information = 0 ∧
      res.new_possibilities = ∅ ∧
      eng'.possible_words = ∅ ∧
      (∀ p : ℚ, p ≤ 0 → information p = 0) := by
  have hc : eng.possible_words.card ≠ 0 := fun h0 => h (Finset.card_eq_zero.mp h0)
  refine ⟨_, _, step_eq_ok hc w fs, ?_, hempty, hempty, fun p hp => information_of_nonpos hp⟩
  show information (((narrow_guesses eng fs).card : ℚ) / (eng.possible_words.card : ℚ)) = 0
  rw [hempty, Finset.card_empty]
  norm_num [information_of_nonpos]

/-- Witness for C10: a concrete engine and combination with an empty
bucket. -/
theorem claim10_witness :
    (Engine.init [['b']]).possible_words ≠ ∅ ∧
    narrow_guesses (Engine.init [['b']]) [.includeCharFilter 'a'] = ∅ ∧
    (∃ res eng', (Engine.init [['b']]).step ['a'] [.includeCharFilter 'a'] = .ok (res, eng') ∧
      res.actual_information = 0 ∧
      res.new_possibilities = ∅ ∧
      eng'.possible_words = ∅ ∧
      (∀ p : ℚ, p ≤ 0 → information p = 0)) :=
  ⟨by decide, by decide, claim10_empty_bucket (by decide) (by decide) ['a']⟩

/-- Claim C2: on a non-empty pool, `step(probe, combination)` computes the
matched bucket, the realized information `-log2(|matched| / |pool|)`
(which is `0` when `|matched| = |pool|`), and the probe's entropy, all
against the pre-mutation pool; only then does it replace the pool with the
bucket, rebuild the index from the new pool, and append the combination to
the applied-filters log, returning the new pool with both information
values. -/
theorem claim2_step_pre_mutation {eng : Engine} (h : eng.possible_words ≠ ∅)
    (w : Word) (fs : List FilterFn) :
    ∃ res eng', eng.step w fs = .ok (res, eng') ∧
      res.new_possibilities = narrow_guesses eng fs ∧
      entropyResult eng w = .ok res.expected_information ∧
      (narrow_guesses eng fs ≠ ∅ →
        res.actual_information =
          -Real.logb 2 (((narrow_guesses eng fs).card : ℝ) / (eng.possible_words.card : ℝ))) ∧
      ((narrow_guesses eng fs).card = eng.possible_words.card →
        res.actual_information = 0) ∧
      eng'.possible_words = narrow_guesses eng fs ∧
      eng'.includeset_dict = build_includeset_dict (narrow_guesses eng fs) ∧
      eng'.current_filters = eng.current_filters ++ [fs] := by
  have hc : eng.possible_words.card ≠ 0 := fun h0 => h (Finset.card_eq_zero.mp h0)
  refine ⟨_, _, step_eq_ok hc w fs, rfl, entropyResult_eq_ok hc w, ?_, ?_, rfl, rfl, rfl⟩
  · intro hne
    have hn : (narrow_guesses eng fs).card ≠ 0 := fun h0 => hne (Finset.card_eq_zero.mp h0)
    show information (((narrow_guesses eng fs).card : ℚ) / (eng.possible_words.card : ℚ)) = _
    rw [information_of_pos (div_pos (by exact_mod_cast Nat.pos_of_ne_zero hn)
      (by exact_mod_cast Nat.pos_of_ne_zero hc))]
    push_cast
    ring
  · intro hcard
    show information (((narrow_guesses eng fs).card : ℚ) / (eng.possible_words.card : ℚ)) = 0
    have h1 : (((narrow_guesses eng fs).card : ℚ) / (eng.possible_words.card : ℚ)) = 1 := by
      rw [hcard]
      exact div_self (Nat.cast_ne_zero.mpr hc)
    rw [h1, information_of_pos one_pos]
    simp [Real.logb_one]

/-- Witness for C2 at a concrete engine, probe and combination. -/
theorem claim2_witness :
    (Engine.init [['a'], ['b']]).possible_words ≠ ∅ ∧
    (∃ res eng',
      (Engine.init [['a'], ['b']]).step ['a'] [.includeCharFilter 'a'] = .ok (res, eng') ∧
      res.new_possibilities = narrow_guesses (Engine.init [['a'], ['b']]) [.includeCharFilter 'a'] ∧
      entropyResult (Engine.init [['a'], ['b']]) ['a'] = .ok res.expected_information ∧
      (narrow_guesses (Engine.init [['a'], ['b']]) [.includeCharFilter 'a'] ≠ ∅ →
        res.actual_information =
          -Real.logb 2
            (((narrow_guesses (Engine.init [['a'], ['b']]) [.includeCharFilter 'a']).card : ℝ) /
              ((Engine.init [['a'], ['b']]).possible_words.card : ℝ))) ∧
      ((narrow_guesses (Engine.init [['a'], ['b']]) [.includeCharFilter 'a']).card =
          (Engine.init [['a'], ['b']]).possible_words.card →
        res.actual_information = 0) ∧
      eng'.possible_words = narrow_guesses (Engine.init [['a'], ['b']]) [.includeCharFilter 'a'] ∧
      eng'.includeset_dict =
        build_includeset_dict (narrow_guesses (Engine.init [['a'], ['b']]) [.includeCharFilter 'a']) ∧
      eng'.current_filters = (Engine.init [['a'], ['b']]).current_filters ++ [[.includeCharFilter 'a']]) :=
  ⟨by decide, claim2_step_pre_mutation (by decide) ['a'] [.includeCharFilter 'a']⟩

/-- Whether a filter's position (if it has one) is below `L`. -/
def posOK (L : Nat) : FilterFn → Bool
  | .hasCharInPosFilter _ i => decide (i < L)
  | _ => true

/-- Claim C3: over a pool of same-length lowercase words and a combination
of predicates drawn from such a probe (lowercase characters, positions
within the word length), the index-intersection bucket equals the set of
pool words directly satisfying every predicate, and a predicate produced
by no pool word has an empty index entry rather than raising an error. -/
theorem claim3_bucket_refines_spec {eng : Engine} (hwf : eng.WF) {L : Nat}
    (hpool : ∀ v ∈ eng.possible_words, v.length = L ∧ ∀ c ∈ v, c ∈ asciiLowercase)
    {fs : List FilterFn}
    (hfs : ∀ f ∈ fs, f.char ∈ asciiLowercase ∧ posOK L f = true) :
    narrow_guesses eng fs = bucketSpec eng.possible_words fs ∧
    (∀ f, (∀ v ∈ eng.possible_words, f ∉ build_word_includeset v) →
      eng.includeset_dict f = ∅) := by
  constructor
  · rw [narrow_guesses_eq_filter hwf, bucketSpec]
    apply Finset.filter_congr
    intro v hv
    constructor
    · intro hall f hf
      exact call_true_of_mem_includeset (hall f hf)
    · intro hall f hf
      refine (mem_includeset_iff_call (hfs f hf).1 ?_).mpr (hall f hf)
      intro c i he
      have hp := (hfs f hf).2
      rw [he] at hp
      simp only [posOK, decide_eq_true_eq] at hp
      rw [(hpool v hv).1]
      exact hp
  · intro f hf
    rw [hwf]
    exact Finset.filter_eq_empty_iff.mpr hf

/-- Witness for C3 at a concrete pool and combination. -/
theorem claim3_witness :
    (Engine.init [['a', 'b'], ['c', 'b']]).WF ∧
    (∀ v ∈ (Engine.init [['a', 'b'], ['c', 'b']]).possible_words,
      v.length = 2 ∧ ∀ c ∈ v, c ∈ asciiLowercase) ∧
    (∀ f ∈ [FilterFn.doesNotHaveCharFilter 'a', FilterFn.hasCharInPosFilter 'b' 1],
      f.char ∈ asciiLowercase ∧ posOK 2 f = true) ∧
    (narrow_guesses (Engine.init [['a', 'b'], ['c', 'b']])
        [.doesNotHaveCharFilter 'a', .hasCharInPosFilter 'b' 1] =
      bucketSpec (Engine.init [['a', 'b'], ['c', 'b']]).possible_words
        [.doesNotHaveCharFilter 'a', .hasCharInPosFilter 'b' 1] ∧
     (∀ f, (∀ v ∈ (Engine.init [['a', 'b'], ['c', 'b']]).possible_words,
        f ∉ build_word_includeset v) →
        (Engine.init [['a', 'b'], ['c', 'b']]).includeset_dict f = ∅)) :=
  ⟨rfl, by decide, by decide,
    @claim3_bucket_refines_spec (Engine.init [['a', 'b'], ['c', 'b']]) rfl 2 (by decide)
      [.doesNotHaveCharFilter 'a', .hasCharInPosFilter 'b' 1] (by decide)⟩

/-- Claim C4: after `step(probe, combination)` with a combination generated
for a lowercase probe over a pool of words of the probe's length, the new
pool is a subset of the old one (so its size never grows), every surviving
word directly satisfies every predicate of the combination, and every
removed word directly fails at least one predicate of the combination. -/
theorem claim4_monotone_narrowing {eng : Engine} (hwf : eng.WF)
    (h : eng.possible_words ≠ ∅) {w : Word}
    (hlower : ∀ c ∈ w, c ∈ asciiLowercase)
    (hlen : ∀ v ∈ eng.possible_words, v.length = w.length)
    {fs : List FilterFn} (hfs : fs ∈ build_word_filtersets w) :
    ∃ res eng', eng.step w fs = .ok (res, eng') ∧
      eng'.possible_words ⊆ eng.possible_words ∧
      eng'.possible_words.card ≤ eng.possible_words.card ∧
      (∀ v ∈ eng'.possible_words, ∀ f ∈ fs, callFilter f v = some true) ∧
      (∀ v ∈ eng.possible_words, v ∉ eng'.possible_words →
        ∃ f ∈ fs, callFilter f v = some false) := by
  have hc : eng.possible_words.card ≠ 0 := fun h0 => h (Finset.card_eq_zero.mp h0)
  refine ⟨_, _, step_eq_ok hc w fs, narrow_guesses_subset eng fs,
    Finset.card_le_card (narrow_guesses_subset eng fs), ?_, ?_⟩
  · intro v hv f hf
    exact call_true_of_mem_includeset (((mem_narrow_guesses hwf).mp hv).2 f hf)
  · intro v hv hnv
    rw [mem_narrow_guesses hwf] at hnv
    push_neg at hnv
    obtain ⟨f, hf, hfmem⟩ := hnv hv
    have hchar : f.char ∈ asciiLowercase ∧ ∀ c i, f = .hasCharInPosFilter c i → i < v.length := by
      rcases mem_combination_cases hfs hf with ⟨c, hcw, rfl⟩ | ⟨c, i, hi, hget, rfl⟩ | ⟨c, hcw, rfl⟩
      · exact ⟨hlower c hcw, fun c' i' he => absurd he (by simp)⟩
      · have hcw : c ∈ w := by
          obtain ⟨h', he⟩ := List.getElem?_eq_some_iff.mp hget
          exact he ▸ List.getElem_mem h'
        refine ⟨hlower c hcw, fun c' i' he => ?_⟩
        obtain ⟨rfl, rfl⟩ := (FilterFn.hasCharInPosFilter.injEq _ _ _ _).mp he
        rw [hlen v hv]
        exact hi
      · exact ⟨hlower c hcw, fun c' i' he => absurd he (by simp)⟩
    exact ⟨f, hf, call_false_of_not_mem_includeset hchar.1 hchar.2 hfmem⟩

/-- Witness for C4 at a concrete engine, probe and generated combination. -/
theorem claim4_witness :
    (Engine.init [['a', 'b'], ['c', 'b']]).WF ∧
    (Engine.init [['a', 'b'], ['c', 'b']]).possible_words ≠ ∅ ∧
    (∀ c ∈ ['a', 'b'], c ∈ asciiLowercase) ∧
    (∀ v ∈ (Engine.init [['a', 'b'], ['c', 'b']]).possible_words,
      v.length = (['a', 'b'] : Word).length) ∧
    [FilterFn.doesNotHaveCharFilter 'a', FilterFn.hasCharInPosFilter 'b' 1] ∈
      build_word_filtersets ['a', 'b'] ∧
    (∃ res eng',
      (Engine.init [['a', 'b'], ['c', 'b']]).step ['a', 'b']
          [.doesNotHaveCharFilter 'a', .hasCharInPosFilter 'b' 1] = .ok (res, eng') ∧
      eng'.possible_words ⊆ (Engine.init [['a', 'b'], ['c', 'b']]).possible_words ∧
      eng'.possible_words.card ≤ (Engine.init [['a', 'b'], ['c', 'b']]).possible_words.card ∧
      (∀ v ∈ eng'.possible_words,
        ∀ f ∈ [FilterFn.doesNotHaveCharFilter 'a', FilterFn.hasCharInPosFilter 'b' 1],
          callFilter f v = some true) ∧
      (∀ v ∈ (Engine.init [['a', 'b'], ['c', 'b']]).possible_words,
        v ∉ eng'.possible_words →
        ∃ f ∈ [FilterFn.doesNotHaveCharFilter 'a', FilterFn.hasCharInPosFilter 'b' 1],
          callFilter f v = some false)) :=
  ⟨rfl, by decide, by decide, by decide, by decide,
    @claim4_monotone_narrowing (Engine.init [['a', 'b'], ['c', 'b']]) rfl (by decide)
      ['a', 'b'] (by decide) (by decide)
      [.doesNotHaveCharFilter 'a', .hasCharInPosFilter 'b' 1] (by decide)⟩

/-- Claim C1, counterexample: bucket probabilities do not sum to 1.  For
pool `{"a", "b"}` and probe `"a"`, the three combinations
`(Exclude a)`, `(PositionMatch a 0)`, `(Include a)` have buckets `{"b"}`,
`{"a"}`, `{"a"}` — the word `"a"` lies in two buckets — and the
probabilities sum to `3/2`. -/
theorem claim1_counterexample :
    bucket_probability_sum (Engine.init [['a'], ['b']]) ['a'] = .ok (3 / 2) ∧
    ((3 : ℚ) / 2) ≠ 1 := by
  constructor
  · rw [bucket_probability_sum, probsResult_of_card_ne_zero (by decide)]
    have hb : filter_current_guesses (Engine.init [['a'], ['b']])
        (build_word_filtersets ['a']) = [{['b']}, {['a']}, {['a']}] := by decide
    have hcard : (Engine.init [['a'], ['b']]).possible_words.card = 2 := by decide
    rw [hb, hcard]
    simp only [Except.map, List.map_cons, List.map_nil, List.sum_cons, List.sum_nil,
      Finset.card_singleton]
    norm_num
  · norm_num

/-- Claim C1 as amended: the combinations cover the pool multiply (or not
at all), not disjointly.  The sum of the bucket probabilities equals
`(Σ_{v ∈ pool} N v) / |pool|`, where `N v` — the number of generated
combinations whose bucket contains `v` — is the product over the probe's
positions of how many of that position's candidate filters lie in `v`'s
include-set; this need not equal 1. -/
theorem claim1_amended {eng : Engine} (hwf : eng.WF)
    (h : eng.possible_words.card ≠ 0) (w : Word) :
    bucket_probability_sum eng w =
      .ok ((∑ v ∈ eng.possible_words, (combinations_containing eng w v : ℚ)) /
        (eng.possible_words.card : ℚ)) ∧
    ∀ v ∈ eng.possible_words, combinations_containing eng w v =
      ((optionLists w).map
        (fun l => l.countP (fun f => decide (f ∈ build_word_includeset v)))).prod := by
  refine ⟨?_, fun v hv => combinations_containing_eq_prod hwf hv⟩
  rw [bucket_probability_sum, probsResult_of_card_ne_zero h]
  simp only [Except.map, Except.ok.injEq]
  have h1 : (filter_current_guesses eng (build_word_filtersets w)).map
      (fun s => (s.card : ℚ) / (eng.possible_words.card : ℚ)) =
      (((filter_current_guesses eng (build_word_filtersets w)).map Finset.card).map
        (fun n : Nat => (n : ℚ))).map (fun x => x / (eng.possible_words.card : ℚ)) := by
    simp [List.map_map, Function.comp_def]
  rw [h1, list_sum_div, ← Nat.cast_list_sum, sum_bucket_cards hwf w]
  push_cast
  rfl

/-- Witness for the amended C1 at a concrete engine and probe. -/
theorem claim1_witness :
    (Engine.init [['a'], ['b']]).WF ∧
    (Engine.init [['a'], ['b']]).possible_words.card ≠ 0 ∧
    (bucket_probability_sum (Engine.init [['a'], ['b']]) ['a'] =
      .ok ((∑ v ∈ (Engine.init [['a'], ['b']]).possible_words,
          (combinations_containing (Engine.init [['a'], ['b']]) ['a'] v : ℚ)) /
        ((Engine.init [['a'], ['b']]).possible_words.card : ℚ)) ∧
     ∀ v ∈ (Engine.init [['a'], ['b']]).possible_words,
       combinations_containing (Engine.init [['a'], ['b']]) ['a'] v =
         ((optionLists ['a']).map
           (fun l => l.countP (fun f => decide (f ∈ build_word_includeset v)))).prod) :=
  ⟨rfl, by decide,
    @claim1_amended (Engine.init [['a'], ['b']]) rfl (by decide) ['a']⟩

/-- Claim C8, counterexample: entropy can be `0` on a pool of two distinct
words with *no* combination matching every pool word.  With pool
`{"ab", "ac"}` and probe `"aa"`, every one of the six buckets is empty
(each pool word has `a` somewhere but not at position 1, so it satisfies
no option at position 1), hence entropy is `0` while the pool has size 2
and no combination captures the whole pool. -/
theorem claim8_counterexample :
    entropyResult (Engine.init [['a', 'b'], ['a', 'c']]) ['a', 'a'] = .ok 0 ∧
    (Engine.init [['a', 'b'], ['a', 'c']]).possible_words.card = 2 ∧
    ¬∃ fs ∈ build_word_filtersets ['a', 'a'],
      ∀ v ∈ (Engine.init [['a', 'b'], ['a', 'c']]).possible_words,
        v ∈ narrow_guesses (Engine.init [['a', 'b'], ['a', 'c']]) fs := by
  refine ⟨?_, by decide, by decide⟩
  rw [entropyResult_eq_ok (by decide)]
  have hb : filter_current_guesses (Engine.init [['a', 'b'], ['a', 'c']])
      (build_word_filtersets ['a', 'a']) = [∅, ∅, ∅, ∅, ∅, ∅] := by decide
  simp [entropyVal, hb, expected_information_zero]

/-- Claim C8 as amended: on a non-empty pool, `entropy(probe)` is the sum
of `p·(−log2 p)` over the generated combinations with the `p = 0` term
defined as `0`; the result is non-negative, and it is `0` iff every
combination's bucket is either empty or the whole pool (in particular
whenever the pool has at most one word, but also in larger pools where no
combination matches every word). -/
theorem claim8_amended {eng : Engine} (h : eng.possible_words.card ≠ 0) (w : Word) :
    entropyResult eng w = .ok (entropyVal eng w) ∧
    0 ≤ entropyVal eng w ∧
    (entropyVal eng w = 0 ↔
      ∀ s ∈ filter_current_guesses eng (build_word_filtersets w),
        s = ∅ ∨ s = eng.possible_words) := by
  have hallmem : ∀ x ∈ (filter_current_guesses eng (build_word_filtersets w)).map
      (fun s => expected_information ((s.card : ℚ) / (eng.possible_words.card : ℚ))),
      0 ≤ x := by
    intro x hx
    obtain ⟨s, hs, rfl⟩ := List.mem_map.mp hx
    exact expected_information_nonneg (bucket_prob_le_one (bucket_subset_of_mem hs) h)
  refine ⟨entropyResult_eq_ok h w, list_sum_real_nonneg hallmem, ?_⟩
  rw [entropyVal, list_sum_real_eq_zero_iff hallmem]
  constructor
  · intro hz s hs
    have hzero := hz _ (List.mem_map_of_mem _ hs)
    rcases (expected_information_eq_zero_iff bucket_prob_nonneg
        (bucket_prob_le_one (bucket_subset_of_mem hs) h)).mp hzero with h0 | h1
    · left
      rw [div_eq_zero_iff] at h0
      rcases h0 with h0 | h0
      · exact Finset.card_eq_zero.mp (by exact_mod_cast h0)
      · exact absurd (by exact_mod_cast h0) h
    · right
      rw [div_eq_one_iff_eq (Nat.cast_ne_zero.mpr h)] at h1
      have hcards : s.card = eng.possible_words.card := by exact_mod_cast h1
      exact Finset.eq_of_subset_of_card_le (bucket_subset_of_mem hs) (le_of_eq hcards.symm)
  · intro hz x hx
    obtain ⟨s, hs, rfl⟩ := List.mem_map.mp hx
    rcases hz s hs with rfl | rfl
    · simp [expected_information_zero]
    · rw [div_self (Nat.cast_ne_zero.mpr h)]
      exact expected_information_one

/-- Witness for the amended C8 at a concrete engine and probe. -/
theorem claim8_witness :
    (Engine.init [['a'], ['b']]).possible_words.card ≠ 0 ∧
    (entropyResult (Engine.init [['a'], ['b']]) ['a'] =
        .ok (entropyVal (Engine.init [['a'], ['b']]) ['a']) ∧
     0 ≤ entropyVal (Engine.init [['a'], ['b']]) ['a'] ∧
     (entropyVal (Engine.init [['a'], ['b']]) ['a'] = 0 ↔
       ∀ s ∈ filter_current_guesses (Engine.init [['a'], ['b']])
           (build_word_filtersets ['a']),
         s = ∅ ∨ s = (Engine.init [['a'], ['b']]).possible_words)) :=
  ⟨by decide, claim8_amended (by decide) ['a']⟩

/-- Claim C9, counterexample: `entropy` does mutate the engine state.  On
pool `{"b"}` with probe `"a"`, the index lookups of the missing keys
`PositionMatch(a, 0)` and `Include(a)` insert empty-set entries into the
`defaultdict`, so the engine after the call differs from the engine
before it (its key set grew). -/
theorem claim9_counterexample :
    (entropyD (EngineD.init [['b']]) ['a']).2 ≠ EngineD.init [['b']] := by
  intro hEq
  have hk := congrArg EngineD.dictKeys hEq
  have h2 : (entropyD (EngineD.init [['b']]) ['a']).2 =
      (filter_current_guessesD (EngineD.init [['b']]) (build_word_filtersets ['a'])).2 := rfl
  rw [h2] at hk
  exact absurd hk (by decide)

/-- Claim C9 as amended: repeated `entropy` calls on the same pool and
probe return identical results, and the call leaves the pool, the
applied-filters log, and every index *value* unchanged; the only mutation
is the `defaultdict` inserting empty-set entries for probed predicates
missing from the index, after which a second identical call changes
nothing at all. -/
theorem claim9_amended {e : EngineD} (hinv : DictInv e) (w : Word) :
    entropyD ((entropyD e w).2) w = entropyD e w ∧
    (entropyD e w).2.possible_words = e.possible_words ∧
    (entropyD e w).2.current_filters = e.current_filters ∧
    (entropyD e w).2.dictVals = e.dictVals := by
  obtain ⟨h1, h2, h3, h4, h5, h6⟩ := filter_current_guessesD_spec hinv (build_word_filtersets w)
  have hsub : ∀ fs ∈ build_word_filtersets w, ∀ f ∈ fs,
      f ∈ (filter_current_guessesD e (build_word_filtersets w)).2.dictKeys := by
    intro fs hfs f hf
    rw [h5]
    exact Finset.mem_union_right _ (mem_allFilters hfs hf)
  have hfix := filter_current_guessesD_of_subset hsub
  have key : filter_current_guessesD (filter_current_guessesD e (build_word_filtersets w)).2
      (build_word_filtersets w) = filter_current_guessesD e (build_word_filtersets w) := by
    rw [hfix, h2, h3, ← h1]
  refine ⟨?_, h3, h4, h2⟩
  show (let p := filter_current_guessesD (entropyD e w).2 (build_word_filtersets w)
        ((tryMapDiv (entropyD e w).2.possible_words.card p.1).map
          (fun ps => (ps.map expected_information).sum), p.2)) = entropyD e w
  have hsnd : (entropyD e w).2 = (filter_current_guessesD e (build_word_filtersets w)).2 := rfl
  rw [hsnd, key, h3]
  rfl

/-- Witness for the amended C9 at a concrete engine satisfying the
dictionary invariant. -/
theorem claim9_witness :
    DictInv (EngineD.init [['b']]) ∧
    (entropyD ((entropyD (EngineD.init [['b']]) ['a']).2) ['a'] =
        entropyD (EngineD.init [['b']]) ['a'] ∧
     (entropyD (EngineD.init [['b']]) ['a']).2.possible_words =
        (EngineD.init [['b']]).possible_words ∧
     (entropyD (EngineD.init [['b']]) ['a']).2.current_filters =
        (EngineD.init [['b']]).current_filters ∧
     (entropyD (EngineD.init [['b']]) ['a']).2.dictVals =
        (EngineD.init [['b']]).dictVals) :=
  ⟨DictInv_init [['b']], claim9_amended (DictInv_init [['b']]) ['a']⟩

end Wordle
